import Mathlib

/-!
Shallow embedding of the replay-buffer subsystem of
`chainerrl/replay_buffers/replay_buffer.py` (class `ReplayBuffer`), together
with the bounded random-access queue it uses.  The queue class
`RandomAccessQueue` lives in `chainerrl/misc/collections.py`, which is not
among the sources; its behaviour is modelled from the specification and each
such definition is marked `Modelled from the spec:`.

Python transition dicts become an `Experience` structure, the per-environment
`collections.deque(maxlen=num_steps)` windows become lists bounded by
`boundedPush`, and the defaultdict from environment id to window becomes a
total function `Nat → List (Experience σ α)` whose default value is `[]`.
-/

namespace ChainerRL

/-- One raw transition, as assembled by `ReplayBuffer.append` into the
`experience` dict: core fields plus the extra scalar keyword fields. -/
structure Experience (σ α : Type) where
  state : σ
  action : α
  reward : Int
  next_state : Option σ
  next_action : Option α
  is_state_terminal : Bool
  kwargs : List (String × Int)
deriving DecidableEq, Repr

/-- A stored transition: the `list(last_n_transitions)` snapshot pushed into
the queue, oldest raw transition first. -/
abbrev Stored (σ α : Type) := List (Experience σ α)

/-- Modelled from the spec: `RandomAccessQueue` (from
`chainerrl/misc/collections.py`, not among the sources) is a FIFO container
with optional maximum size `maxlen`; `data` lists its elements oldest first. -/
structure RandomAccessQueue (T : Type) where
  maxlen : Option Nat
  data : List T
deriving DecidableEq, Repr

/-- Modelled from the spec: appending to the queue evicts the logically
oldest entry when the queue is at capacity; `maxlen = none` never evicts. -/
def RandomAccessQueue.append {T : Type} (q : RandomAccessQueue T) (x : T) :
    RandomAccessQueue T :=
  match q.maxlen with
  | none => { q with data := q.data ++ [x] }
  | some c => { q with data := (q.data ++ [x]).drop (q.data.length + 1 - c) }

/-- Push a whole list of items into the queue, oldest first. -/
def pushAll {T : Type} (q : RandomAccessQueue T) (l : List T) :
    RandomAccessQueue T :=
  l.foldl RandomAccessQueue.append q

/-- Modelled from the spec: draw `k` items from `pool` without replacement;
`r` is the stream of random numbers driving each choice. -/
def draw {T : Type} : Nat → List T → (Nat → Nat) → List T
  | 0, _, _ => []
  | _ + 1, [], _ => []
  | k + 1, x :: xs, r =>
    let i := r 0 % (x :: xs).length
    (x :: xs).getD i x :: draw k ((x :: xs).eraseIdx i) (fun j => r (j + 1))

/-- Modelled from the spec: `sample(k)` fails (raising
`InsufficientDataError`, modelled as `none`) when `k` exceeds the current
size, and otherwise returns `k` items drawn without replacement. -/
def RandomAccessQueue.sample {T : Type} (q : RandomAccessQueue T) (k : Nat)
    (r : Nat → Nat) : Option (List T) :=
  if k ≤ q.data.length then some (draw k q.data r) else none

/-- Appending to a Python `deque(maxlen := n)`: the new element goes to the
right and, when the deque is full, the leftmost element is silently dropped. -/
def boundedPush {E : Type} (n : Nat) (w : List E) (x : E) : List E :=
  (w ++ [x]).drop (w.length + 1 - n)

/-- The `while last_n_transitions: append(list(...)); del [0]` loop: it
pushes the current window, then the window without its oldest entry, and so
on down to the singleton suffix. -/
def drain {E : Type} : List E → List (List E)
  | [] => []
  | x :: t => (x :: t) :: drain t

/-- The replay buffer state: configured capacity, the n-step window size
`num_steps`, the bounded queue `memory`, and the per-environment windows
`last_n_transitions` (a defaultdict of deques in the source, modelled as a
total function with default `[]`). -/
structure ReplayBuffer (σ α : Type) where
  capacity : Option Nat
  num_steps : Nat
  memory : RandomAccessQueue (Stored σ α)
  last_n_transitions : Nat → List (Experience σ α)

/-- `ReplayBuffer.__init__`: empty queue with `maxlen = capacity`, empty
windows.  The source asserts `num_steps > 0`; theorems carry that as a
hypothesis. -/
def ReplayBuffer.init (σ α : Type) (capacity : Option Nat) (num_steps : Nat) :
    ReplayBuffer σ α :=
  { capacity := capacity
    num_steps := num_steps
    memory := { maxlen := capacity, data := [] }
    last_n_transitions := fun _ => [] }

/-- Update one environment's window, leaving the others unchanged. -/
def setWindow {σ α : Type} (f : Nat → List (Experience σ α)) (env_id : Nat)
    (w : List (Experience σ α)) : Nat → List (Experience σ α) :=
  fun i => if i = env_id then w else f i

/-- Body of `ReplayBuffer.append` once the `experience` dict has been built:
push it into the env's window; on a terminal transition flush every suffix of
the window into the queue and clear the window; otherwise push the full
window into the queue exactly when it has reached length `num_steps`. -/
def ReplayBuffer.appendExp {σ α : Type} (b : ReplayBuffer σ α)
    (e : Experience σ α) (env_id : Nat) : ReplayBuffer σ α :=
  let w := boundedPush b.num_steps (b.last_n_transitions env_id) e
  if e.is_state_terminal then
    { b with
      memory := pushAll b.memory (drain w)
      last_n_transitions := setWindow b.last_n_transitions env_id [] }
  else if w.length = b.num_steps then
    { b with
      memory := b.memory.append w
      last_n_transitions := setWindow b.last_n_transitions env_id w }
  else
    { b with last_n_transitions := setWindow b.last_n_transitions env_id w }

/-- `ReplayBuffer.append`: build the `experience` dict from the arguments and
route it through the environment's accumulator window. -/
def ReplayBuffer.append {σ α : Type} (b : ReplayBuffer σ α) (state : σ)
    (action : α) (reward : Int) (next_state : Option σ)
    (next_action : Option α) (is_state_terminal : Bool) (env_id : Nat)
    (kwargs : List (String × Int)) : ReplayBuffer σ α :=
  b.appendExp
    { state := state
      action := action
      reward := reward
      next_state := next_state
      next_action := next_action
      is_state_terminal := is_state_terminal
      kwargs := kwargs } env_id

/-- `ReplayBuffer.stop_current_episode`: if the window is non-empty and not
full, push it once; then (avoiding a duplicate of an already-pushed full
window) delete the oldest entry and drain the remaining suffixes. -/
def ReplayBuffer.stop_current_episode {σ α : Type} (b : ReplayBuffer σ α)
    (env_id : Nat) : ReplayBuffer σ α :=
  let w := b.last_n_transitions env_id
  let mem1 :=
    if 0 < w.length ∧ w.length < b.num_steps then b.memory.append w
    else b.memory
  let w1 := if 0 < w.length ∧ w.length ≤ b.num_steps then w.drop 1 else w
  { b with
    memory := pushAll mem1 (drain w1)
    last_n_transitions := setWindow b.last_n_transitions env_id [] }

/-- `ReplayBuffer.__len__`: the number of stored transitions. -/
def ReplayBuffer.size {σ α : Type} (b : ReplayBuffer σ α) : Nat :=
  b.memory.data.length

/-- `ReplayBuffer.sample`: the source asserts `len(self.memory) >= k` and
then delegates to the queue's `sample`. -/
def ReplayBuffer.sample {σ α : Type} (b : ReplayBuffer σ α) (k : Nat)
    (r : Nat → Nat) : Option (List (Stored σ α)) :=
  if k ≤ b.memory.data.length then b.memory.sample k r else none

/-- The object found in a pickle file passed to `ReplayBuffer.load`: the
current layout (a pickled `RandomAccessQueue`), the legacy v0.2 layout (a
pickled bounded deque, carrying its own `maxlen`), or any other pickled
object. -/
inductive PersistedData (σ α : Type) where
  | raq (q : RandomAccessQueue (Stored σ α))
  | deque (maxlen : Option Nat) (data : List (Stored σ α))
  | other (junk : Nat)
deriving DecidableEq, Repr

/-- What `self.memory` holds right after `ReplayBuffer.load` ran: either a
usable queue, or whatever unrecognized object the pickle file contained
(stored as-is, since `load` performs no validation). -/
inductive MemoryObj (σ α : Type) where
  | queue (q : RandomAccessQueue (Stored σ α))
  | unrecognized (junk : Nat)
deriving DecidableEq, Repr

/-- The error `restore` is claimed to raise on unrecognized layouts. -/
inductive LoadError where
  | unknownFormat
deriving DecidableEq, Repr

/-- `ReplayBuffer.save`: pickle exactly `self.memory`, nothing else.  The
pickle serialization itself is modelled as the identity embedding into
`PersistedData`. -/
def ReplayBuffer.save {σ α : Type} (b : ReplayBuffer σ α) :
    PersistedData σ α :=
  .raq b.memory

/-- The body of `ReplayBuffer.load`: `self.memory = pickle.load(f)`, then
upgrade the legacy deque layout (`RandomAccessQueue(mem, maxlen=mem.maxlen)`).
Any other object is kept as-is; no branch raises an error. -/
def loadedMemory {σ α : Type} : PersistedData σ α →
    Except LoadError (MemoryObj σ α)
  | .raq q => .ok (.queue q)
  | .deque ml d => .ok (.queue { maxlen := ml, data := d })
  | .other j => .ok (.unrecognized j)

/-- `ReplayBuffer.load` on the typed buffer state: defined when the loaded
memory object is a queue.  (When an unrecognized object is loaded the Python
buffer's `memory` field no longer holds a queue, which the typed state cannot
represent; `loadedMemory` captures that case.) -/
def ReplayBuffer.load {σ α : Type} (b : ReplayBuffer σ α)
    (d : PersistedData σ α) : Option (ReplayBuffer σ α) :=
  match loadedMemory d with
  | .ok (.queue q) => some { b with memory := q }
  | .ok (.unrecognized _) => none
  | .error _ => none

/-- The stored transitions one call to `append` pushes into the queue
(read off the branches of `ReplayBuffer.appendExp`). -/
def appendEmits {σ α : Type} (n : Nat) (w : List (Experience σ α))
    (e : Experience σ α) : List (Stored σ α) :=
  let w' := boundedPush n w e
  if e.is_state_terminal then drain w'
  else if w'.length = n then [w'] else []

/-- The environment's window after one call to `append` (read off the
branches of `ReplayBuffer.appendExp`). -/
def windowAfterAppend {σ α : Type} (n : Nat) (w : List (Experience σ α))
    (e : Experience σ α) : List (Experience σ α) :=
  if e.is_state_terminal then [] else boundedPush n w e

/-- The stored transitions one call to `stop_current_episode` pushes into
the queue (read off `ReplayBuffer.stop_current_episode`). -/
def stopEmits {σ α : Type} (n : Nat) (w : List (Experience σ α)) :
    List (Stored σ α) :=
  (if 0 < w.length ∧ w.length < n then [w] else []) ++
    drain (if 0 < w.length ∧ w.length ≤ n then w.drop 1 else w)

/-- One `append` step of the emission log of a single environment: the pair
holds the list of all stored transitions pushed so far and the current
window. -/
def stepLog {σ α : Type} (n : Nat)
    (s : List (Stored σ α) × List (Experience σ α)) (e : Experience σ α) :
    List (Stored σ α) × List (Experience σ α) :=
  (s.1 ++ appendEmits n s.2 e, windowAfterAppend n s.2 e)

/-- Every stored transition pushed while appending `es` to one environment
starting from an empty window and then calling `stop_current_episode`. -/
def episodeLog {σ α : Type} (n : Nat) (es : List (Experience σ α)) :
    List (Stored σ α) :=
  let s := es.foldl (stepLog n) ([], [])
  s.1 ++ stopEmits n s.2

/-- An operation of the buffer's mutating interface. -/
inductive BufOp (σ α : Type) where
  | append (e : Experience σ α) (env_id : Nat)
  | stop (env_id : Nat)

/-- Run one operation. -/
def runOp {σ α : Type} (b : ReplayBuffer σ α) : BufOp σ α → ReplayBuffer σ α
  | .append e env_id => b.appendExp e env_id
  | .stop env_id => b.stop_current_episode env_id

/-- Run a sequence of operations. -/
def runOps {σ α : Type} (b : ReplayBuffer σ α) (ops : List (BufOp σ α)) :
    ReplayBuffer σ α :=
  ops.foldl runOp b

/-- Transition t1 of the capacity-3, `num_steps = 2` scenario. -/
def t1ex : Experience Nat Nat :=
  { state := 1, action := 0, reward := 0, next_state := some 2
    next_action := none, is_state_terminal := false, kwargs := [] }

/-- Transition t2 of the scenario. -/
def t2ex : Experience Nat Nat :=
  { state := 2, action := 0, reward := 0, next_state := some 3
    next_action := none, is_state_terminal := false, kwargs := [] }

/-- Transition t3 of the scenario (terminal). -/
def t3ex : Experience Nat Nat :=
  { state := 3, action := 0, reward := 0, next_state := none
    next_action := none, is_state_terminal := true, kwargs := [] }

/-- A non-terminal variant of t3, for the overlapping-window run. -/
def t3nt : Experience Nat Nat :=
  { state := 3, action := 0, reward := 0, next_state := some 4
    next_action := none, is_state_terminal := false, kwargs := [] }

/-- The scenario buffer after appending t1 and t2 (capacity 3, 2 steps). -/
def scenBuf2 : ReplayBuffer Nat Nat :=
  ((ReplayBuffer.init Nat Nat (some 3) 2).appendExp t1ex 0).appendExp t2ex 0

/-- The scenario buffer after additionally appending the terminal t3. -/
def scenBuf3 : ReplayBuffer Nat Nat :=
  scenBuf2.appendExp t3ex 0

/-- Unbounded 2-step buffer after three non-terminal appends: its stored
windows overlap. -/
def olBuf : ReplayBuffer Nat Nat :=
  (((ReplayBuffer.init Nat Nat none 2).appendExp t1ex 0).appendExp
    t2ex 0).appendExp t3nt 0

section Lemmas

variable {σ α : Type} {T : Type}

theorem drain_eq_suffixes (w : List T) :
    drain w = (List.range w.length).map (fun i => w.drop i) := by
  induction w with
  | nil => rfl
  | cons x t ih =>
    simp only [drain, List.length_cons, List.range_succ_eq_map,
      List.map_cons, List.map_map, List.drop_zero]
    refine congrArg (List.cons (x :: t)) ?_
    rw [ih]
    exact List.map_congr_left fun i _ => by
      simp [Function.comp, List.drop_succ_cons]

theorem drain_length (w : List T) : (drain w).length = w.length := by
  rw [drain_eq_suffixes]; simp

theorem boundedPush_length (n : Nat) (w : List T) (x : T) :
    (boundedPush n w x).length = min (w.length + 1) n := by
  simp only [boundedPush, List.length_drop, List.length_append,
    List.length_cons, List.length_nil]
  omega

theorem boundedPush_of_lt (n : Nat) (w : List T) (x : T)
    (h : w.length < n) : boundedPush n w x = w ++ [x] := by
  have h0 : w.length + 1 - n = 0 := by omega
  simp [boundedPush, h0]

theorem boundedPush_of_eq (n : Nat) (w : List T) (x : T)
    (h : w.length = n) : boundedPush n w x = (w ++ [x]).drop 1 := by
  have h1 : w.length + 1 - n = 1 := by omega
  rw [boundedPush, h1]

theorem RandomAccessQueue.append_maxlen (q : RandomAccessQueue T) (x : T) :
    (q.append x).maxlen = q.maxlen := by
  obtain ⟨ml, d⟩ := q
  cases ml <;> rfl

theorem RandomAccessQueue.append_data_none (q : RandomAccessQueue T) (x : T)
    (h : q.maxlen = none) : (q.append x).data = q.data ++ [x] := by
  obtain ⟨ml, d⟩ := q
  cases h
  rfl

theorem RandomAccessQueue.append_data_some (q : RandomAccessQueue T) (x : T)
    (c : Nat) (h : q.maxlen = some c) :
    (q.append x).data = (q.data ++ [x]).drop (q.data.length + 1 - c) := by
  obtain ⟨ml, d⟩ := q
  cases h
  rfl

theorem RandomAccessQueue.append_length_some (q : RandomAccessQueue T)
    (x : T) (c : Nat) (h : q.maxlen = some c) :
    (q.append x).data.length = min (q.data.length + 1) c := by
  rw [RandomAccessQueue.append_data_some q x c h]
  simp only [List.length_drop, List.length_append, List.length_cons,
    List.length_nil]
  omega

theorem RandomAccessQueue.append_evicts_oldest (q : RandomAccessQueue T)
    (x : T) (c : Nat) (hml : q.maxlen = some c) (hc : 0 < c)
    (hlen : q.data.length = c) :
    (q.append x).data = q.data.drop 1 ++ [x] := by
  rw [RandomAccessQueue.append_data_some q x c hml, hlen]
  have h1 : c + 1 - c = 1 := by omega
  rw [h1, List.drop_append_of_le_length (by omega)]

theorem pushAll_nil (q : RandomAccessQueue T) : pushAll q [] = q := rfl

theorem pushAll_cons (q : RandomAccessQueue T) (x : T) (l : List T) :
    pushAll q (x :: l) = pushAll (q.append x) l := rfl

theorem pushAll_append_list (q : RandomAccessQueue T) (l₁ l₂ : List T) :
    pushAll q (l₁ ++ l₂) = pushAll (pushAll q l₁) l₂ :=
  List.foldl_append _ _ _ _

theorem pushAll_one (q : RandomAccessQueue T) (x : T) :
    pushAll q [x] = q.append x := rfl

theorem pushAll_maxlen (l : List T) : ∀ q : RandomAccessQueue T,
    (pushAll q l).maxlen = q.maxlen := by
  induction l with
  | nil => intro q; rfl
  | cons x l ih =>
    intro q
    rw [pushAll_cons, ih, RandomAccessQueue.append_maxlen]

theorem pushAll_data_some (c : Nat) (l : List T) :
    ∀ q : RandomAccessQueue T, q.maxlen = some c → q.data.length ≤ c →
      (pushAll q l).data = (q.data ++ l).drop (q.data.length + l.length - c) := by
  induction l with
  | nil =>
    intro q _ hlen
    rw [pushAll_nil, List.append_nil]
    have h0 : q.data.length + ([] : List T).length - c = 0 := by
      simp only [List.length_nil]; omega
    rw [h0, List.drop_zero]
  | cons x l ih =>
    intro q hml hlen
    rw [pushAll_cons,
      ih (q.append x) ((RandomAccessQueue.append_maxlen q x).trans hml)
        (by rw [RandomAccessQueue.append_length_some q x c hml]; omega),
      RandomAccessQueue.append_data_some q x c hml,
      ← List.drop_append_of_le_length (by simp),
      List.drop_drop, List.append_assoc, List.singleton_append]
    congr 1
    simp only [List.length_drop, List.length_append, List.length_cons,
      List.length_nil]
    omega

theorem pushAll_length_le (c : Nat) (l : List T) (q : RandomAccessQueue T)
    (hml : q.maxlen = some c) (hlen : q.data.length ≤ c) :
    (pushAll q l).data.length ≤ c := by
  rw [pushAll_data_some c l q hml hlen]
  simp only [List.length_drop, List.length_append]
  omega

theorem appendExp_eq (b : ReplayBuffer σ α) (e : Experience σ α)
    (env_id : Nat) :
    b.appendExp e env_id =
      { b with
        memory := pushAll b.memory
          (appendEmits b.num_steps (b.last_n_transitions env_id) e)
        last_n_transitions := setWindow b.last_n_transitions env_id
          (windowAfterAppend b.num_steps (b.last_n_transitions env_id) e) } := by
  by_cases h : e.is_state_terminal
  · simp [ReplayBuffer.appendExp, appendEmits, windowAfterAppend, h]
  · by_cases h2 : (boundedPush b.num_steps (b.last_n_transitions env_id)
        e).length = b.num_steps
    · simp [ReplayBuffer.appendExp, appendEmits, windowAfterAppend, h, h2,
        pushAll_one]
    · simp [ReplayBuffer.appendExp, appendEmits, windowAfterAppend, h, h2,
        pushAll_nil]

theorem stop_eq (b : ReplayBuffer σ α) (env_id : Nat) :
    b.stop_current_episode env_id =
      { b with
        memory := pushAll b.memory
          (stopEmits b.num_steps (b.last_n_transitions env_id))
        last_n_transitions := setWindow b.last_n_transitions env_id [] } := by
  unfold ReplayBuffer.stop_current_episode stopEmits
  by_cases hpos : 0 < (b.last_n_transitions env_id).length
  · by_cases hlt : (b.last_n_transitions env_id).length < b.num_steps
    · have hle : (b.last_n_transitions env_id).length ≤ b.num_steps :=
        Nat.le_of_lt hlt
      simp [hpos, hlt, hle, pushAll_cons]
    · by_cases hle : (b.last_n_transitions env_id).length ≤ b.num_steps <;>
        simp [hpos, hlt, hle]
  · simp [hpos]

theorem draw_length : ∀ (k : Nat) (pool : List T) (r : Nat → Nat),
    k ≤ pool.length → (draw k pool r).length = k
  | 0, _, _, _ => rfl
  | k + 1, [], _, h => by simp at h
  | k + 1, x :: xs, r, h => by
    have hi : r 0 % (x :: xs).length < (x :: xs).length :=
      Nat.mod_lt _ (by simp)
    have hrec : k ≤ ((x :: xs).eraseIdx (r 0 % (x :: xs).length)).length := by
      rw [List.length_eraseIdx]
      simp only [hi, if_true]
      simp only [List.length_cons] at h ⊢
      omega
    simp only [List.length_cons] at hrec
    simp only [draw, List.length_cons]
    rw [draw_length k _ _ hrec]

theorem draw_subperm : ∀ (k : Nat) (pool : List T) (r : Nat → Nat),
    List.Subperm (draw k pool r) pool
  | 0, _, _ => List.nil_subperm
  | _ + 1, [], _ => List.nil_subperm
  | k + 1, x :: xs, r => by
    rw [draw]
    have hi : r 0 % (x :: xs).length < (x :: xs).length :=
      Nat.mod_lt _ (by simp)
    rw [List.getD_eq_getElem _ _ hi]
    have h2 : List.Subperm
        ((x :: xs)[r 0 % (x :: xs).length] ::
          draw k ((x :: xs).eraseIdx (r 0 % (x :: xs).length))
            (fun j => r (j + 1)))
        ((x :: xs)[r 0 % (x :: xs).length] ::
          (x :: xs).eraseIdx (r 0 % (x :: xs).length)) :=
      (List.subperm_cons _).2 (draw_subperm k _ _)
    refine h2.trans (List.Perm.subperm ?_)
    rw [List.eraseIdx_eq_take_drop_succ]
    have hsplit : (x :: xs).take (r 0 % (x :: xs).length) ++
        (x :: xs)[r 0 % (x :: xs).length] ::
          (x :: xs).drop (r 0 % (x :: xs).length + 1) = x :: xs := by
      rw [List.getElem_cons_drop _ _ hi, List.take_append_drop]
    have hp : List.Perm
        ((x :: xs)[r 0 % (x :: xs).length] ::
          ((x :: xs).take (r 0 % (x :: xs).length) ++
            (x :: xs).drop (r 0 % (x :: xs).length + 1)))
        ((x :: xs).take (r 0 % (x :: xs).length) ++
          (x :: xs)[r 0 % (x :: xs).length] ::
            (x :: xs).drop (r 0 % (x :: xs).length + 1)) :=
      List.perm_middle.symm
    rw [hsplit] at hp
    exact hp

end Lemmas

section Claims

variable {σ α : Type}

/-- C1: a terminal `append` whose post-push window `w'` has length `L`
(necessarily `1 ≤ L ≤ num_steps`) pushes into the bounded queue exactly the
`L` suffixes of `w'`, longest first (lengths `L, L-1, ..., 1`), and leaves
that environment's window empty. -/
theorem append_terminal_flushes_suffixes (b : ReplayBuffer σ α)
    (e : Experience σ α) (env_id : Nat) (w' : List (Experience σ α))
    (hn : 0 < b.num_steps) (hterm : e.is_state_terminal = true)
    (hw : w' = boundedPush b.num_steps (b.last_n_transitions env_id) e) :
    (b.appendExp e env_id).memory =
        pushAll b.memory ((List.range w'.length).map (fun i => w'.drop i)) ∧
      ((List.range w'.length).map (fun i => w'.drop i)).length = w'.length ∧
      1 ≤ w'.length ∧ w'.length ≤ b.num_steps ∧
      (∀ i, i < w'.length → (w'.drop i).length = w'.length - i) ∧
      (b.appendExp e env_id).last_n_transitions env_id = [] := by
  subst hw
  rw [appendExp_eq]
  refine ⟨?_, by simp, ?_, ?_, ?_, ?_⟩
  · have hemits : appendEmits b.num_steps (b.last_n_transitions env_id) e =
        drain (boundedPush b.num_steps (b.last_n_transitions env_id) e) := by
      simp [appendEmits, hterm]
    dsimp only
    rw [hemits, drain_eq_suffixes]
  · rw [boundedPush_length]; omega
  · rw [boundedPush_length]; omega
  · intro i _; rw [List.length_drop]
  · simp [setWindow, windowAfterAppend, hterm]

/-- Witness for C1 at a concrete input. -/
theorem append_terminal_flushes_suffixes_witness :
    (((ReplayBuffer.init Nat Nat none 2).appendExp t3ex 0).last_n_transitions
      0 = []) :=
  (append_terminal_flushes_suffixes (ReplayBuffer.init Nat Nat none 2) t3ex 0
    _ (by decide) (by decide) rfl).2.2.2.2.2

/-- C2: a non-terminal `append` on a full window slides the window (the new
window is the most recent `num_steps` raw transitions, oldest first), pushes
exactly that one stored transition, keeps the window full, and grows the
queue by one stored transition subject to capacity eviction. -/
theorem append_full_window_emits_once (b : ReplayBuffer σ α)
    (e : Experience σ α) (env_id : Nat) (w' : List (Experience σ α))
    (_hn : 0 < b.num_steps)
    (hfull : (b.last_n_transitions env_id).length = b.num_steps)
    (hterm : e.is_state_terminal = false)
    (hw : w' = boundedPush b.num_steps (b.last_n_transitions env_id) e) :
    w' = (b.last_n_transitions env_id ++ [e]).drop 1 ∧
      w'.length = b.num_steps ∧
      (b.appendExp e env_id).memory = b.memory.append w' ∧
      (b.appendExp e env_id).last_n_transitions env_id = w' ∧
      (b.appendExp e env_id).memory.data.length =
        (match b.memory.maxlen with
          | none => b.memory.data.length + 1
          | some c => min (b.memory.data.length + 1) c) := by
  subst hw
  have hlen : (boundedPush b.num_steps (b.last_n_transitions env_id)
      e).length = b.num_steps := by
    rw [boundedPush_length]; omega
  have hemits : appendEmits b.num_steps (b.last_n_transitions env_id) e =
      [boundedPush b.num_steps (b.last_n_transitions env_id) e] := by
    simp [appendEmits, hterm, hlen]
  refine ⟨boundedPush_of_eq _ _ _ hfull, hlen, ?_, ?_, ?_⟩
  · rw [appendExp_eq]; dsimp only
    rw [hemits, pushAll_one]
  · rw [appendExp_eq]; dsimp only
    simp [setWindow, windowAfterAppend, hterm]
  · rw [appendExp_eq]; dsimp only
    rw [hemits, pushAll_one]
    rcases hml : b.memory.maxlen with _ | c
    · rw [RandomAccessQueue.append_data_none _ _ hml]; simp
    · rw [RandomAccessQueue.append_length_some _ _ c hml]

/-- Witness for C2 at a concrete input. -/
theorem append_full_window_emits_once_witness :
    (scenBuf2.appendExp t3nt 0).memory =
      scenBuf2.memory.append
        (boundedPush 2 (scenBuf2.last_n_transitions 0) t3nt) :=
  (append_full_window_emits_once scenBuf2 t3nt 0 _ (by decide) (by decide)
    (by decide) rfl).2.2.1

/-- C4: `stop_current_episode` drains the remaining suffixes exactly once:
a partial window of length `0 < L < num_steps` yields the suffixes of
lengths `L, ..., 1`; a full window (already pushed at full length by the
preceding append) yields only the suffixes of lengths `num_steps - 1, ..., 1`;
an empty window yields nothing; the window ends empty in all cases. -/
theorem stop_episode_drains_window (b : ReplayBuffer σ α) (env_id : Nat)
    (w : List (Experience σ α)) (hn : 0 < b.num_steps)
    (hwle : w.length ≤ b.num_steps)
    (hw : w = b.last_n_transitions env_id) :
    (w = [] → (b.stop_current_episode env_id).memory = b.memory) ∧
      (0 < w.length → w.length < b.num_steps →
        (b.stop_current_episode env_id).memory =
          pushAll b.memory
            ((List.range w.length).map (fun i => w.drop i))) ∧
      (w.length = b.num_steps →
        (b.stop_current_episode env_id).memory =
          pushAll b.memory
            ((List.range (b.num_steps - 1)).map (fun i => w.drop (i + 1)))) ∧
      (b.stop_current_episode env_id).last_n_transitions env_id = [] := by
  subst hw
  rw [stop_eq]
  dsimp only
  refine ⟨?_, ?_, ?_, by simp [setWindow]⟩
  · intro h0
    rw [h0]
    simp [stopEmits, drain, pushAll_nil]
  · intro hpos hlt
    obtain ⟨x, t, hxt⟩ : ∃ x t, b.last_n_transitions env_id = x :: t := by
      rcases hcase : b.last_n_transitions env_id with _ | ⟨x, t⟩
      · rw [hcase] at hpos; simp at hpos
      · exact ⟨x, t, rfl⟩
    rw [hxt] at hlt ⊢
    have heq : stopEmits b.num_steps (x :: t) = drain (x :: t) := by
      have hc1 : 0 < (x :: t).length ∧ (x :: t).length < b.num_steps :=
        ⟨by simp, hlt⟩
      have hc2 : 0 < (x :: t).length ∧ (x :: t).length ≤ b.num_steps :=
        ⟨by simp, Nat.le_of_lt hlt⟩
      simp only [stopEmits, hc1, hc2, if_pos, and_self]
      simp [drain]
    rw [heq, drain_eq_suffixes]
  · intro hfull
    have hc1 : ¬(0 < (b.last_n_transitions env_id).length ∧
        (b.last_n_transitions env_id).length < b.num_steps) := by
      rw [hfull]; omega
    have hc2 : 0 < (b.last_n_transitions env_id).length ∧
        (b.last_n_transitions env_id).length ≤ b.num_steps := by
      rw [hfull]; omega
    have heq : stopEmits b.num_steps (b.last_n_transitions env_id) =
        drain ((b.last_n_transitions env_id).drop 1) := by
      unfold stopEmits
      rw [if_neg hc1, if_pos hc2]
      simp
    rw [heq, drain_eq_suffixes]
    have hlen1 : ((b.last_n_transitions env_id).drop 1).length =
        b.num_steps - 1 := by
      rw [List.length_drop, hfull]
    rw [hlen1]
    congr 1
    exact List.map_congr_left fun i _ => by rw [List.drop_drop, Nat.add_comm]

/-- Witness for C4 at a concrete input (partial window of length 1,
`num_steps = 3`). -/
theorem stop_episode_drains_window_witness :
    (((ReplayBuffer.init Nat Nat none 3).appendExp t1ex
        0).stop_current_episode 0).memory =
      pushAll ((ReplayBuffer.init Nat Nat none 3).appendExp t1ex 0).memory
        ((List.range (((ReplayBuffer.init Nat Nat none 3).appendExp t1ex
            0).last_n_transitions 0).length).map
          (fun i => (((ReplayBuffer.init Nat Nat none 3).appendExp t1ex
            0).last_n_transitions 0).drop i)) :=
  (stop_episode_drains_window _ 0 _ (by decide) (by decide) rfl).2.1
    (by decide) (by decide)

/-- C5: the concrete capacity-3, `num_steps = 2` scenario: after t1, t2 the
queue holds exactly `[[t1, t2]]`; the terminal t3 pushes `[t2, t3]` then
`[t3]`, in that order; the final queue holds
`[[t1, t2], [t2, t3], [t3]]`. -/
theorem scenario_cap3_nstep2 :
    scenBuf2.memory.data = [[t1ex, t2ex]] ∧
      scenBuf3.memory = pushAll scenBuf2.memory [[t2ex, t3ex], [t3ex]] ∧
      scenBuf3.memory.data = [[t1ex, t2ex], [t2ex, t3ex], [t3ex]] := by
  decide

theorem runOp_memory_maxlen (b : ReplayBuffer σ α) (op : BufOp σ α) :
    (runOp b op).memory.maxlen = b.memory.maxlen := by
  cases op with
  | append e env_id => rw [runOp, appendExp_eq]; exact pushAll_maxlen _ _
  | stop env_id => rw [runOp, stop_eq]; exact pushAll_maxlen _ _

theorem runOp_size_le (c : Nat) (b : ReplayBuffer σ α) (op : BufOp σ α)
    (hml : b.memory.maxlen = some c) (hlen : b.memory.data.length ≤ c) :
    (runOp b op).memory.data.length ≤ c := by
  cases op with
  | append e env_id =>
    rw [runOp, appendExp_eq]
    exact pushAll_length_le c _ _ hml hlen
  | stop env_id =>
    rw [runOp, stop_eq]
    exact pushAll_length_le c _ _ hml hlen

theorem runOps_size_le (c : Nat) : ∀ (ops : List (BufOp σ α))
    (b : ReplayBuffer σ α), b.memory.maxlen = some c →
    b.memory.data.length ≤ c →
    (runOps b ops).memory.data.length ≤ c := by
  intro ops
  induction ops with
  | nil => intro b _ hlen; exact hlen
  | cons op ops ih =>
    intro b hml hlen
    exact ih (runOp b op) ((runOp_memory_maxlen b op).trans hml)
      (runOp_size_le c b op hml hlen)

/-- C6: the queue size never exceeds the configured finite capacity `C`
under any operation sequence; a push onto a queue already holding `C`
entries discards the oldest entry first; and after `C + 1` pushes into an
initially empty capacity-`C` queue the first-pushed stored transition is
gone (the queue retains exactly the last `C`). -/
theorem queue_capacity_invariant (C n : Nat) (ops : List (BufOp σ α))
    (q : RandomAccessQueue (Stored σ α)) (x : Stored σ α)
    (l : List (Stored σ α)) (hml : q.maxlen = some C) (hC : 0 < C)
    (hfullq : q.data.length = C) (hl : l.length = C + 1) :
    (runOps (ReplayBuffer.init σ α (some C) n) ops).memory.data.length ≤ C ∧
      (q.append x).data = q.data.drop 1 ++ [x] ∧
      (pushAll { maxlen := some C, data := [] } l).data = l.drop 1 := by
  refine ⟨runOps_size_le C ops _ rfl (by simp [ReplayBuffer.init]), ?_, ?_⟩
  · exact RandomAccessQueue.append_evicts_oldest q x C hml hC hfullq
  · rw [pushAll_data_some C l _ rfl (by simp)]
    simp only [List.nil_append, List.length_nil, Nat.zero_add, hl]
    congr 1
    omega

/-- Witness for C6 at concrete inputs (capacity 1). -/
theorem queue_capacity_invariant_witness :
    (RandomAccessQueue.append
        { maxlen := some 1, data := [[t1ex]] } [t2ex]).data =
      ([[t1ex]] : List (Stored Nat Nat)).drop 1 ++ [[t2ex]] :=
  (queue_capacity_invariant 1 1 [] { maxlen := some 1, data := [[t1ex]] }
    [t2ex] [[t1ex], [t2ex]] rfl (by decide) (by decide) (by decide)).2.1

/-- C7: `sample k` fails exactly when `k` exceeds the stored count, and
otherwise returns `k` stored transitions drawn without replacement (a
sub-permutation of the queue contents). -/
theorem sample_insufficient_iff (b : ReplayBuffer σ α) (k : Nat)
    (r : Nat → Nat) :
    (b.sample k r = none ↔ b.memory.data.length < k) ∧
      (k ≤ b.memory.data.length →
        ∃ l, b.sample k r = some l ∧ l.length = k ∧
          List.Subperm l b.memory.data) := by
  constructor
  · unfold ReplayBuffer.sample RandomAccessQueue.sample
    by_cases h : k ≤ b.memory.data.length <;> simp [h] <;> try omega
  · intro hk
    refine ⟨draw k b.memory.data r, ?_, draw_length k _ r hk,
      draw_subperm k _ r⟩
    unfold ReplayBuffer.sample RandomAccessQueue.sample
    simp [hk]

/-- Witness for C7 at a concrete input. -/
theorem sample_insufficient_iff_witness :
    ∃ l, scenBuf2.sample 1 (fun _ => 0) = some l ∧ l.length = 1 ∧
      List.Subperm l scenBuf2.memory.data :=
  (sample_insufficient_iff scenBuf2 1 (fun _ => 0)).2 (by decide)

/-- C8: restoring from the output of `save` yields a buffer whose stored
transitions are identical in content and order and whose size is equal. -/
theorem save_load_roundtrip (b : ReplayBuffer σ α) :
    ∃ b', b.load b.save = some b' ∧ b'.memory.data = b.memory.data ∧
      b'.size = b.size :=
  ⟨{ b with memory := b.memory }, rfl, rfl, rfl⟩

/-- Counterexample to C9: loading persisted data that is neither the
current nor the legacy layout does not produce `UnknownFormatError` — the
loaded object is kept unvalidated. -/
theorem load_other_is_not_error :
    loadedMemory (σ := Nat) (α := Nat) (PersistedData.other 0) ≠
      Except.error LoadError.unknownFormat := by
  intro h
  exact Except.noConfusion h

/-- C9 (amended): `load` performs no layout validation; persisted data that
is neither the current indexed-queue layout nor the legacy deque layout is
kept as the buffer's memory object unchanged, and no error is raised. -/
theorem load_other_keeps_junk {σ' α' : Type} (j : Nat) :
    loadedMemory (σ := σ') (α := α') (PersistedData.other j) =
      Except.ok (MemoryObj.unrecognized j) := rfl

/-- C10: `save` depends only on the queue (pending accumulator windows are
not written), and a successful `load` replaces only the queue, leaving the
capacity field, `num_steps` and the per-environment windows untouched. -/
theorem persist_restore_frame {σ' α' : Type} :
    (∀ b b' : ReplayBuffer σ' α', b.memory = b'.memory →
        b.save = b'.save) ∧
      (∀ (b b₂ : ReplayBuffer σ' α') (d : PersistedData σ' α'),
        b.load d = some b₂ →
        b₂.capacity = b.capacity ∧ b₂.num_steps = b.num_steps ∧
          b₂.last_n_transitions = b.last_n_transitions) := by
  constructor
  · intro b b' h
    unfold ReplayBuffer.save
    rw [h]
  · intro b b₂ d h
    rcases d with q | ⟨ml, dd⟩ | j
    · have hred : b.load (PersistedData.raq q) =
          some { b with memory := q } := rfl
      rw [hred] at h
      injection h with h'
      subst h'
      exact ⟨rfl, rfl, rfl⟩
    · have hred : b.load (PersistedData.deque ml dd) =
          some { b with memory := { maxlen := ml, data := dd } } := rfl
      rw [hred] at h
      injection h with h'
      subst h'
      exact ⟨rfl, rfl, rfl⟩
    · have hred : b.load (PersistedData.other j) = none := rfl
      rw [hred] at h
      exact Option.noConfusion h

/-- Witness for C10 at concrete inputs. -/
theorem persist_restore_frame_witness :
    ((ReplayBuffer.init Nat Nat none 1).save =
        (ReplayBuffer.init Nat Nat none 2).save) ∧
      (({ scenBuf2 with
            memory := { maxlen := some 5, data := [[t1ex]] } } :
          ReplayBuffer Nat Nat).capacity = scenBuf2.capacity ∧
        ({ scenBuf2 with
            memory := { maxlen := some 5, data := [[t1ex]] } } :
          ReplayBuffer Nat Nat).num_steps = scenBuf2.num_steps ∧
        ({ scenBuf2 with
            memory := { maxlen := some 5, data := [[t1ex]] } } :
          ReplayBuffer Nat Nat).last_n_transitions =
          scenBuf2.last_n_transitions) :=
  ⟨persist_restore_frame.1 (ReplayBuffer.init Nat Nat none 1)
      (ReplayBuffer.init Nat Nat none 2) rfl,
    persist_restore_frame.2 scenBuf2 _
      (PersistedData.deque (some 5) [[t1ex]]) rfl⟩

theorem mem_boundedPush_self (n : Nat) (w : List (Experience σ α))
    (x : Experience σ α) (hn : 0 < n) : x ∈ boundedPush n w x := by
  unfold boundedPush
  rw [List.drop_append_of_le_length (by simp; omega)]
  simp

theorem mem_boundedPush_of_lt (n : Nat) (w : List (Experience σ α))
    (x y : Experience σ α) (h : w.length < n) (hy : y ∈ w) :
    y ∈ boundedPush n w x := by
  rw [boundedPush_of_lt n w x h]
  exact List.mem_append_left _ hy

theorem self_mem_drain {T : Type} (w : List T) (h : w ≠ []) :
    w ∈ drain w := by
  cases w with
  | nil => exact absurd rfl h
  | cons x t => rw [drain]; exact List.mem_cons_self _ _

theorem stepLog_inv (n : Nat) (hn : 0 < n) (e : Experience σ α)
    (s : List (Stored σ α) × List (Experience σ α))
    (h1 : s.2.length ≤ n) (h2 : s.2.length = n → s.2 ∈ s.1) :
    (stepLog n s e).2.length ≤ n ∧
      ((stepLog n s e).2.length = n →
        (stepLog n s e).2 ∈ (stepLog n s e).1) ∧
      (∀ y : Experience σ α,
        ((∃ t ∈ s.1, y ∈ t) ∨ y ∈ s.2) →
        ((∃ t ∈ (stepLog n s e).1, y ∈ t) ∨ y ∈ (stepLog n s e).2)) ∧
      ((∃ t ∈ (stepLog n s e).1, e ∈ t) ∨ e ∈ (stepLog n s e).2) := by
  obtain ⟨log, w⟩ := s
  dsimp only at h1 h2
  by_cases hterm : e.is_state_terminal
  · have hwin : (stepLog n (log, w) e).2 = [] := by
      simp [stepLog, windowAfterAppend, hterm]
    have hlog : (stepLog n (log, w) e).1 =
        log ++ drain (boundedPush n w e) := by
      simp [stepLog, appendEmits, hterm]
    have hne : boundedPush n w e ≠ [] :=
      List.ne_nil_of_mem (mem_boundedPush_self n w e hn)
    refine ⟨by rw [hwin]; simp [hn], ?_, ?_, ?_⟩
    · intro habs
      rw [hwin] at habs
      simp at habs
      omega
    · intro y hy
      rcases hy with ⟨t, ht, hyt⟩ | hyw
      · exact Or.inl ⟨t, by rw [hlog]; exact List.mem_append_left _ ht, hyt⟩
      · by_cases hwn : w.length = n
        · exact Or.inl ⟨w,
            by rw [hlog]; exact List.mem_append_left _ (h2 hwn), hyw⟩
        · refine Or.inl ⟨boundedPush n w e, ?_, ?_⟩
          · rw [hlog]
            exact List.mem_append_right _ (self_mem_drain _ hne)
          · exact mem_boundedPush_of_lt n w e y
              (lt_of_le_of_ne h1 hwn) hyw
    · refine Or.inl ⟨boundedPush n w e, ?_, mem_boundedPush_self n w e hn⟩
      rw [hlog]
      exact List.mem_append_right _ (self_mem_drain _ hne)
  · have hwin : (stepLog n (log, w) e).2 = boundedPush n w e := by
      simp [stepLog, windowAfterAppend, hterm]
    refine ⟨?_, ?_, ?_, ?_⟩
    · rw [hwin, boundedPush_length]; omega
    · intro hfull
      rw [hwin] at hfull
      have hlog : (stepLog n (log, w) e).1 =
          log ++ [boundedPush n w e] := by
        simp [stepLog, appendEmits, hterm, hfull]
      rw [hwin, hlog]
      exact List.mem_append_right _ (List.mem_singleton.2 rfl)
    · intro y hy
      rcases hy with ⟨t, ht, hyt⟩ | hyw
      · refine Or.inl ⟨t, ?_, hyt⟩
        have : (stepLog n (log, w) e).1 = log ++ appendEmits n w e := rfl
        rw [this]
        exact List.mem_append_left _ ht
      · by_cases hwn : w.length = n
        · refine Or.inl ⟨w, ?_, hyw⟩
          have : (stepLog n (log, w) e).1 = log ++ appendEmits n w e := rfl
          rw [this]
          exact List.mem_append_left _ (h2 hwn)
        · refine Or.inr ?_
          rw [hwin]
          exact mem_boundedPush_of_lt n w e y (lt_of_le_of_ne h1 hwn) hyw
    · refine Or.inr ?_
      rw [hwin]
      exact mem_boundedPush_self n w e hn

theorem foldl_stepLog_inv (n : Nat) (hn : 0 < n) :
    ∀ (es : List (Experience σ α))
      (s : List (Stored σ α) × List (Experience σ α)),
      s.2.length ≤ n → (s.2.length = n → s.2 ∈ s.1) →
      (es.foldl (stepLog n) s).2.length ≤ n ∧
        ((es.foldl (stepLog n) s).2.length = n →
          (es.foldl (stepLog n) s).2 ∈ (es.foldl (stepLog n) s).1) ∧
        (∀ y : Experience σ α, ((∃ t ∈ s.1, y ∈ t) ∨ y ∈ s.2) →
          ((∃ t ∈ (es.foldl (stepLog n) s).1, y ∈ t) ∨
            y ∈ (es.foldl (stepLog n) s).2)) ∧
        (∀ y ∈ es, (∃ t ∈ (es.foldl (stepLog n) s).1, y ∈ t) ∨
          y ∈ (es.foldl (stepLog n) s).2) := by
  intro es
  induction es with
  | nil =>
    intro s h1 h2
    exact ⟨h1, h2, fun y hy => hy, by simp⟩
  | cons e es ih =>
    intro s h1 h2
    have hstep := stepLog_inv n hn e s h1 h2
    have hrest := ih (stepLog n s e) hstep.1 hstep.2.1
    rw [List.foldl_cons]
    refine ⟨hrest.1, hrest.2.1, ?_, ?_⟩
    · intro y hy
      exact hrest.2.2.1 y (hstep.2.2.1 y hy)
    · intro y hy
      rcases List.mem_cons.1 hy with rfl | hmem
      · exact hrest.2.2.1 y hstep.2.2.2
      · exact hrest.2.2.2 y hmem

theorem stopEmits_covers (n : Nat) (_hn : 0 < n)
    (w : List (Experience σ α)) (log : List (Stored σ α))
    (hle : w.length ≤ n) (hfull : w.length = n → w ∈ log)
    (y : Experience σ α) (hy : y ∈ w) :
    ∃ t ∈ log ++ stopEmits n w, y ∈ t := by
  by_cases hwn : w.length = n
  · exact ⟨w, List.mem_append_left _ (hfull hwn), hy⟩
  · have hlt : w.length < n := lt_of_le_of_ne hle hwn
    have hpos : 0 < w.length := List.length_pos.2 (List.ne_nil_of_mem hy)
    refine ⟨w, List.mem_append_right _ ?_, hy⟩
    unfold stopEmits
    refine List.mem_append_left _ ?_
    rw [if_pos ⟨hpos, hlt⟩]
    exact List.mem_singleton.2 rfl

/-- Counterexample to C3: with `num_steps = 2` the raw transition t2,
passed to `append` once, is contained in two distinct stored transitions
held by the queue. -/
theorem raw_transition_in_two_stored_transitions :
    olBuf.memory.data = [[t1ex, t2ex], [t2ex, t3nt]] ∧
      olBuf.memory.data.countP (fun s => decide (t2ex ∈ s)) = 2 := by
  decide

/-- C3 (amended): every raw transition appended during an episode is
represented in at least one stored transition pushed into the queue by the
time the episode is stopped (it may appear in several overlapping n-step
windows when `num_steps > 1`); the emission log is exactly what
`appendExp` / `stop_current_episode` push into the queue. -/
theorem every_raw_transition_reaches_queue (n : Nat)
    (es : List (Experience σ α)) (e : Experience σ α) (hn : 0 < n)
    (he : e ∈ es) :
    (∃ t, t ∈ (es.foldl (stepLog n) ([], [])).1 ++
        stopEmits n (es.foldl (stepLog n) ([], [])).2 ∧ e ∈ t) ∧
      (∀ (b : ReplayBuffer σ α) (x : Experience σ α) (env_id : Nat),
        (b.appendExp x env_id).memory =
            pushAll b.memory (appendEmits b.num_steps
              (b.last_n_transitions env_id) x) ∧
          (b.appendExp x env_id).last_n_transitions env_id =
            windowAfterAppend b.num_steps (b.last_n_transitions env_id) x ∧
          (b.stop_current_episode env_id).memory =
            pushAll b.memory (stopEmits b.num_steps
              (b.last_n_transitions env_id))) := by
  constructor
  · have hinv := foldl_stepLog_inv n hn es ([], []) (by simp)
      (by intro h; simp at h; omega)
    rcases hinv.2.2.2 e he with ⟨t, ht, het⟩ | hwin
    · exact ⟨t, List.mem_append_left _ ht, het⟩
    · obtain ⟨t, ht, het⟩ :=
        stopEmits_covers n hn _ _ hinv.1 hinv.2.1 e hwin
      exact ⟨t, ht, het⟩
  · intro b x env_id
    refine ⟨?_, ?_, ?_⟩
    · rw [appendExp_eq]
    · rw [appendExp_eq]; simp [setWindow]
    · rw [stop_eq]

/-- Witness for the amended C3 at a concrete episode. -/
theorem every_raw_transition_reaches_queue_witness :
    ∃ t, t ∈ ([t1ex, t2ex, t3nt].foldl (stepLog 2) ([], [])).1 ++
        stopEmits 2 ([t1ex, t2ex, t3nt].foldl (stepLog 2) ([], [])).2 ∧
      t2ex ∈ t :=
  (every_raw_transition_reaches_queue 2 [t1ex, t2ex, t3nt] t2ex (by decide)
    (by decide)).1

end Claims

end ChainerRL
